import Mathlib

/-!
Verification of the change-attribution core of the ai-usage-compliance-logger
extension (src/src/extension.ts).

Embedding conventions:
* JavaScript strings are modelled as `List Char` (`Str`). `String.prototype.split('\n')`
  is `splitLines`, `trim` is `trim` (whitespace per `Char.isWhitespace`, which covers
  the ASCII whitespace relevant here), `toLowerCase` is `toLowerStr` (ASCII lowering),
  `includes` is decided list containment (`<:+:`).
* JavaScript numbers are modelled exactly: list lengths and counters as `Nat`,
  timestamp arithmetic as `Int`, and the percentage computation as exact rational
  arithmetic with `round` (Math.round rounds half toward positive infinity, which is
  `round` on `ℚ`).
* `Date.now()` values are injected as an explicit `now : Int` parameter; the two
  `new Date()` calls inside one handler invocation are identified.
* Console logging, notification popups and the editor/VCS glue are side effects with
  no influence on the computed data and are not modelled.
-/

namespace AIUsage

/-- JavaScript strings, modelled as lists of characters. -/
abbrev Str := List Char

/-- JS `s.split('\n')`: split on the newline character; the empty string yields one
empty line, and every string yields at least one line. -/
def splitLines : Str → List Str
  | [] => [[]]
  | c :: cs =>
    if c = '\n' then [] :: splitLines cs
    else
      match splitLines cs with
      | [] => [[c]]
      | l :: ls => (c :: l) :: ls

/-- JS `s.trimEnd()`-style helper: drop trailing whitespace. -/
def trimRight (s : Str) : Str := (s.reverse.dropWhile Char.isWhitespace).reverse

/-- JS `s.trim()`: drop leading and trailing whitespace. -/
def trim (s : Str) : Str := trimRight (s.dropWhile Char.isWhitespace)

/-- JS `s.toLowerCase()` restricted to the ASCII mapping. -/
def toLowerStr (s : Str) : Str := s.map Char.toLower

/-! ## Diff engine (`calculateDetailedDifferences`, extension.ts lines 320-366) -/

/-- One entry of the `addedLines`/`removedLines` arrays: `{lineNumber, content}`. -/
structure LineChange where
  lineNumber : Nat
  content : Str
deriving DecidableEq

/-- One entry of the `modifiedLines` array: `{lineNumber, oldContent, newContent}`. -/
structure ModifiedLine where
  lineNumber : Nat
  oldContent : Str
  newContent : Str
deriving DecidableEq

/-- The `statistics` object of `calculateDetailedDifferences`. -/
structure DiffStatistics where
  totalOldLines : Nat
  totalNewLines : Nat
  linesAdded : Nat
  linesRemoved : Nat
  linesModified : Nat
  linesUnchanged : Int
  netLineChange : Int
  charDifference : Int
deriving DecidableEq

/-- The record returned by `calculateDetailedDifferences`. -/
structure DiffResult where
  statistics : DiffStatistics
  added : List LineChange
  removed : List LineChange
  modified : List ModifiedLine
  oldContent : Str
  newContent : Str
deriving DecidableEq

/-- The three delta arrays accumulated by the `for` loop of
`calculateDetailedDifferences`. -/
structure DiffLists where
  added : List LineChange
  removed : List LineChange
  modified : List ModifiedLine
deriving DecidableEq

/-- Tail of the diff loop once the old side is exhausted: every remaining new line
is pushed as an added line (`oldLine === undefined && newLine !== undefined`). -/
def addedOnly (i : Nat) : List Str → List LineChange
  | [] => []
  | n :: ns => ⟨i + 1, n⟩ :: addedOnly (i + 1) ns

/-- The `for (let i = 0; i < maxLines; i++)` loop of `calculateDetailedDifferences`,
expressed as simultaneous recursion on the two line lists; `i` is the current index.
At each position exactly one of the three arrays is extended, or none when both
sides agree. -/
def diffLoop (i : Nat) : List Str → List Str → DiffLists
  | [], ns => ⟨addedOnly i ns, [], []⟩
  | o :: os, [] =>
    let r := diffLoop (i + 1) os []
    ⟨r.added, ⟨i + 1, o⟩ :: r.removed, r.modified⟩
  | o :: os, n :: ns =>
    let r := diffLoop (i + 1) os ns
    if o = n then r else ⟨r.added, r.removed, ⟨i + 1, o, n⟩ :: r.modified⟩

/-- `calculateDetailedDifferences(oldContent, newContent)` (extension.ts 320-366). -/
def calculateDetailedDifferences (oldContent newContent : Str) : DiffResult :=
  let oldLines := splitLines oldContent
  let newLines := splitLines newContent
  let d := diffLoop 0 oldLines newLines
  { statistics :=
      { totalOldLines := oldLines.length
        totalNewLines := newLines.length
        linesAdded := d.added.length
        linesRemoved := d.removed.length
        linesModified := d.modified.length
        linesUnchanged := (min oldLines.length newLines.length : Int) - d.modified.length
        netLineChange := (newLines.length : Int) - oldLines.length
        charDifference := (newContent.length : Int) - oldContent.length }
    added := d.added
    removed := d.removed
    modified := d.modified
    oldContent := oldContent
    newContent := newContent }

/-! ## Insertion tracker (`trackTextInsertion`, extension.ts lines 40-70) -/

/-- The `TextInsertion` interface. Timestamps are milliseconds as `Int`. -/
structure TextInsertion where
  timestamp : Int
  fileName : Str
  text : Str
  lineNumber : Nat
deriving DecidableEq

/-- One element of `event.contentChanges`: the inserted text, the length of the
replaced range, and the 0-based start line. -/
structure ContentChange where
  text : Str
  rangeLength : Nat
  startLine : Nat
deriving DecidableEq

/-- `INSERTION_WINDOW_MS = 60000`. -/
def INSERTION_WINDOW_MS : Int := 60000

/-- The body of the `contentChanges.forEach` callback in `trackTextInsertion`:
record one content change against the log, appending a `TextInsertion` when the
change is a pure insertion longer than 5 characters and then dropping every event
whose age has reached the retention window. -/
def trackOneChange (now : Int) (fileName : Str) (log : List TextInsertion)
    (change : ContentChange) : List TextInsertion :=
  let insertedText := change.text
  let isInsertion := change.rangeLength == 0 && insertedText.length > 0
  if isInsertion && insertedText.length > 5 then
    let insertion : TextInsertion :=
      ⟨now, fileName, insertedText, change.startLine + 1⟩
    (log ++ [insertion]).filter fun i => now - i.timestamp < INSERTION_WINDOW_MS
  else log

/-- `trackTextInsertion`: fold the per-change body over `event.contentChanges`. -/
def trackTextInsertion (now : Int) (fileName : Str) (changes : List ContentChange)
    (log : List TextInsertion) : List TextInsertion :=
  changes.foldl (trackOneChange now fileName) log

/-! ## Attribution engine (`analyzeCopilotUsage`, extension.ts lines 101-256) -/

/-- The `isMatch` test of `analyzeCopilotUsage` (lines 164-186): split the
insertion's text into trimmed sub-lines and accept when any sub-line is an exact
match, a case-insensitive match of a candidate longer than 5 characters, or shares
a substring with a candidate when both are longer than 15 characters.
`lineContent` is the already-trimmed candidate content. -/
def matchesCandidate (lineContent : Str) (insertion : TextInsertion) : Bool :=
  let insertionLines := (splitLines insertion.text).map trim
  insertionLines.any fun insLine =>
    insLine == lineContent
    || (toLowerStr insLine == toLowerStr lineContent && decide (5 < lineContent.length))
    || (decide (15 < lineContent.length) && decide (15 < insLine.length)
        && (decide (lineContent <:+: insLine) || decide (insLine <:+: lineContent)))

/-- The mutable counters of `analyzeCopilotUsage`: `copilotUsedCount`,
`manualChangesCount` and the `matchedChanges` array. A `matchedChanges` entry is
modelled as the pair of the line number and the truncated content interpolated
into the pushed string. -/
structure MatchState where
  copilotUsedCount : Nat
  manualChangesCount : Nat
  matchedChanges : List (Nat × Str)
deriving DecidableEq

/-- The 60-character truncation used for `matchedChanges` entries:
`lineContent.substring(0, 60)` followed by an ellipsis when longer than 60. -/
def truncate60 (lineContent : Str) : Str :=
  lineContent.take 60 ++ (if 60 < lineContent.length then "...".toList else [])

/-- Body of the inner `fileInsertions.forEach` (lines 161-201): on a match,
increment `copilotUsedCount` and push a `matchedChanges` entry. -/
def stepInsertion (lineContent : Str) (lineNumber : Nat) (st : MatchState)
    (insertion : TextInsertion) : MatchState :=
  if matchesCandidate lineContent insertion then
    { st with
      copilotUsedCount := st.copilotUsedCount + 1
      matchedChanges := st.matchedChanges ++ [(lineNumber, truncate60 lineContent)] }
  else st

/-- Body of the outer `allChangedLines.forEach` (lines 151-207): skip lines that
trim to nothing, run every insertion against the line, and count the line as
manual when no insertion matched (`foundMatch` is `fileInsertions.any ...`). -/
def stepLine (fileInsertions : List TextInsertion) (st : MatchState)
    (changedLine : LineChange) : MatchState :=
  let lineContent := trim changedLine.content
  if lineContent.length = 0 then st
  else
    let st2 := fileInsertions.foldl (stepInsertion lineContent changedLine.lineNumber) st
    if fileInsertions.any (matchesCandidate lineContent) then st2
    else { st2 with manualChangesCount := st2.manualChangesCount + 1 }

/-- `allChangedLines` (lines 125-133): every added line's content followed by
every modified line's new content. -/
def candidateLines (differences : DiffResult) : List LineChange :=
  differences.added.map (fun l => ⟨l.lineNumber, l.content⟩)
    ++ differences.modified.map (fun l => ⟨l.lineNumber, l.newContent⟩)

/-- The data computed by `analyzeCopilotUsage`: the two counters, the matched
details, `totalChanges` and `copilotPercentage`. -/
structure AttributionResult where
  copilotUsedCount : Nat
  manualChangesCount : Nat
  matchedChanges : List (Nat × Str)
  totalChanges : Nat
  copilotPercentage : Int
deriving DecidableEq

/-- `analyzeCopilotUsage(differences, ...)` (extension.ts 101-256), with the
per-file insertion snapshot passed in as `fileInsertions`. When insertions and
changed lines are both present the matching loop runs; otherwise every non-blank
changed line is counted as manual. -/
def analyzeCopilotUsage (differences : DiffResult)
    (fileInsertions : List TextInsertion) : AttributionResult :=
  let allChangedLines := candidateLines differences
  let st : MatchState :=
    if 0 < fileInsertions.length ∧ 0 < allChangedLines.length then
      allChangedLines.foldl (stepLine fileInsertions) ⟨0, 0, []⟩
    else
      ⟨0, (allChangedLines.filter fun l => 0 < (trim l.content).length).length, []⟩
  let totalChanges := st.copilotUsedCount + st.manualChangesCount
  let copilotPercentage : Int :=
    if 0 < totalChanges then
      round ((st.copilotUsedCount : ℚ) / (totalChanges : ℚ) * 100)
    else 0
  ⟨st.copilotUsedCount, st.manualChangesCount, st.matchedChanges,
    totalChanges, copilotPercentage⟩

/-! ## Derived descriptions of the attribution run, used to state the theorems -/

/-- Number of insertion events a changed line matches; blank lines are skipped by
the engine and contribute 0. -/
def lineMatchCount (fileInsertions : List TextInsertion) (cl : LineChange) : Nat :=
  if (trim cl.content).length = 0 then 0
  else fileInsertions.countP (matchesCandidate (trim cl.content))

/-- A changed line the engine counts as manual: non-blank and matched by no
insertion event. -/
def isManualLine (fileInsertions : List TextInsertion) (cl : LineChange) : Bool :=
  !((trim cl.content).length == 0)
    && !(fileInsertions.any (matchesCandidate (trim cl.content)))

/-- A changed line the engine classifies as tool-attributed: non-blank and matched
by at least one insertion event. -/
def isMatchedLine (fileInsertions : List TextInsertion) (cl : LineChange) : Bool :=
  !((trim cl.content).length == 0)
    && fileInsertions.any (matchesCandidate (trim cl.content))

/-- The `matchedChanges` entries one changed line generates: one copy per matching
insertion event. -/
def lineMatchEntries (fileInsertions : List TextInsertion) (cl : LineChange) :
    List (Nat × Str) :=
  List.replicate (lineMatchCount fileInsertions cl)
    (cl.lineNumber, truncate60 (trim cl.content))

/-- The matching rule exactly as the specification words it: some sub-line of the
insertion's text, after trimming, is (a) equal to the candidate's trimmed content,
or (b) case-insensitively equal when the candidate's trimmed length exceeds 5, or
(c) a substring of the candidate or conversely when both trimmed lengths
exceed 15. -/
def matchesCandidateSpec (lineContent : Str) (insertion : TextInsertion) : Prop :=
  ∃ insLine ∈ (splitLines insertion.text).map trim,
    insLine = lineContent
    ∨ (toLowerStr insLine = toLowerStr lineContent ∧ 5 < lineContent.length)
    ∨ (15 < lineContent.length ∧ 15 < insLine.length
        ∧ (lineContent <:+: insLine ∨ insLine <:+: lineContent))

/-- The tracker's pruning step exactly as the specification words it: after an
append, remove the events whose age exceeds the retention window (strictly older
than 60,000 ms), keeping everything else. -/
def trackOneChangePerSpecWording (now : Int) (fileName : Str)
    (log : List TextInsertion) (change : ContentChange) : List TextInsertion :=
  if 5 < change.text.length then
    let insertion : TextInsertion := ⟨now, fileName, change.text, change.startLine + 1⟩
    (log ++ [insertion]).filter fun i => !(INSERTION_WINDOW_MS < now - i.timestamp)
  else log

/-! ## Lemmas about `splitLines` and `trim` -/

theorem splitLines_ne_nil (s : Str) : splitLines s ≠ [] := by
  cases s with
  | nil => simp [splitLines]
  | cons c cs =>
    by_cases h : c = '\n'
    · simp [splitLines, h]
    · simp only [splitLines, h, if_false]
      cases hs : splitLines cs <;> simp

theorem length_splitLines (s : Str) : (splitLines s).length = s.count '\n' + 1 := by
  induction s with
  | nil => simp [splitLines]
  | cons c cs ih =>
    by_cases h : c = '\n'
    · subst h
      simp [splitLines, List.count_cons, ih]
    · rcases hs : splitLines cs with _ | ⟨l, ls⟩
      · exact absurd hs (splitLines_ne_nil cs)
      · have := ih
        rw [hs] at this
        simp only [splitLines, if_neg h, hs, List.length_cons] at *
        rw [List.count_cons]
        simp [h, ← this]

theorem splitLines_cons_newline (cs : Str) :
    splitLines ('\n' :: cs) = [] :: splitLines cs := by
  simp [splitLines]

theorem splitLines_cons_of_ne {c : Char} {cs m : Str} {ms : List Str}
    (h : ¬ c = '\n') (hs : splitLines cs = m :: ms) :
    splitLines (c :: cs) = (c :: m) :: ms := by
  simp [splitLines, h, hs]

theorem not_newline_of_mem_splitLines {s l : Str} (hl : l ∈ splitLines s) :
    '\n' ∉ l := by
  induction s generalizing l with
  | nil =>
    simp [splitLines] at hl
    simp [hl]
  | cons c cs ih =>
    by_cases h : c = '\n'
    · subst h
      rw [splitLines_cons_newline] at hl
      rcases List.mem_cons.mp hl with rfl | hl
      · simp
      · exact ih hl
    · obtain ⟨m, ms, hs⟩ := List.exists_cons_of_ne_nil (splitLines_ne_nil cs)
      rw [splitLines_cons_of_ne h hs] at hl
      rcases List.mem_cons.mp hl with rfl | hl
      · intro hmem
        rcases List.mem_cons.mp hmem with rfl | hmem
        · exact h rfl
        · exact ih (hs ▸ List.mem_cons_self m ms) hmem
      · exact ih (hs ▸ List.mem_cons_of_mem m hl)

theorem splitLines_of_no_newline {s : Str} (h : s.count '\n' = 0) :
    splitLines s = [s] := by
  induction s with
  | nil => simp [splitLines]
  | cons c cs ih =>
    rw [List.count_cons] at h
    have hc : ¬ c = '\n' := by
      intro hc
      simp [hc] at h
    have hcs : cs.count '\n' = 0 := by omega
    simp [splitLines, hc, ih hcs]

theorem trimRight_nil : trimRight [] = [] := rfl

theorem dropWhile_append_eq (p : Char → Bool) (l1 l2 : Str) :
    (l1 ++ l2).dropWhile p =
      if (l1.dropWhile p).isEmpty then l2.dropWhile p else l1.dropWhile p ++ l2 := by
  induction l1 with
  | nil => simp
  | cons a l1 ih =>
    by_cases h : p a <;> simp [List.dropWhile_cons, h, ih]

theorem trimRight_cons (d : Char) (ds : Str) :
    trimRight (d :: ds) =
      if trimRight ds = [] then (if d.isWhitespace then [] else [d])
      else d :: trimRight ds := by
  unfold trimRight
  rw [List.reverse_cons, dropWhile_append_eq]
  by_cases h : (ds.reverse.dropWhile Char.isWhitespace) = []
  · simp only [h]
    by_cases hw : d.isWhitespace <;> simp [List.dropWhile_cons, hw]
  · have h2 : ¬ (ds.reverse.dropWhile Char.isWhitespace).reverse = [] := by
      simpa using h
    simp [h, h2, List.isEmpty_iff]

theorem trim_cons_of_whitespace {c : Char} (cs : Str) (h : c.isWhitespace) :
    trim (c :: cs) = trim cs := by
  simp [trim, List.dropWhile_cons, h]

theorem trim_cons_of_not_whitespace {c : Char} (cs : Str) (h : ¬ c.isWhitespace) :
    trim (c :: cs) = c :: trimRight cs := by
  have h1 : List.dropWhile Char.isWhitespace (c :: cs) = c :: cs := by
    simp [List.dropWhile_cons, h]
  rw [show trim (c :: cs) = trimRight (List.dropWhile Char.isWhitespace (c :: cs)) from rfl,
    h1, trimRight_cons]
  by_cases he : trimRight cs = [] <;> simp [he, h]

theorem mem_of_mem_trimRight {a : Char} {s : Str} (h : a ∈ trimRight s) : a ∈ s := by
  unfold trimRight at h
  rw [List.mem_reverse] at h
  have := (List.dropWhile_sublist (l := s.reverse) (p := Char.isWhitespace)).mem h
  rwa [List.mem_reverse] at this

theorem mem_of_mem_trim {a : Char} {s : Str} (h : a ∈ trim s) : a ∈ s := by
  unfold trim at h
  have := mem_of_mem_trimRight h
  exact (List.dropWhile_sublist (l := s) (p := Char.isWhitespace)).mem this

theorem trimRight_head_segment {cs : Str} {m : Str} {ms : List Str}
    (hs : splitLines cs = m :: ms) (h : '\n' ∉ trimRight cs) :
    trimRight cs = trimRight m := by
  induction cs generalizing m ms with
  | nil =>
    simp [splitLines] at hs
    simp [hs.1]
  | cons d ds ih =>
    have hwnl : ('\n').isWhitespace = true := by decide
    by_cases hd : d = '\n'
    · subst hd
      rw [splitLines_cons_newline] at hs
      injection hs with h1 h2
      subst h1
      rw [trimRight_cons] at h ⊢
      by_cases he : trimRight ds = []
      · simp [he, hwnl, trimRight_nil]
      · simp only [he, if_false] at h
        exact absurd (List.mem_cons_self _ _) h
    · obtain ⟨m2, ms2, hs2⟩ := List.exists_cons_of_ne_nil (splitLines_ne_nil ds)
      rw [splitLines_cons_of_ne hd hs2] at hs
      injection hs with h1 h2
      subst h1
      rw [trimRight_cons] at h ⊢
      rw [trimRight_cons d m2]
      by_cases he : trimRight ds = []
      · have hm2 : trimRight m2 = [] := by
          have := ih hs2 (by simp [he])
          rw [he] at this
          exact this.symm
        simp [he, hm2]
      · simp only [he, if_false] at h
        have hnm : '\n' ∉ trimRight ds := fun hmem => h (List.mem_cons_of_mem _ hmem)
        have heq := ih hs2 hnm
        rw [← heq]

theorem trim_mem_map_trim_splitLines (s : Str) (h : '\n' ∉ trim s) :
    trim s ∈ (splitLines s).map trim := by
  induction s with
  | nil => simp [splitLines]
  | cons c cs ih =>
    by_cases hw : c.isWhitespace
    · rw [trim_cons_of_whitespace cs hw] at h ⊢
      by_cases hc : c = '\n'
      · subst hc
        rw [splitLines_cons_newline, List.map_cons]
        exact List.mem_cons_of_mem _ (ih h)
      · obtain ⟨m, ms, hs⟩ := List.exists_cons_of_ne_nil (splitLines_ne_nil cs)
        rw [splitLines_cons_of_ne hc hs, List.map_cons]
        have ihm := ih h
        rw [hs, List.map_cons] at ihm
        rcases List.mem_cons.mp ihm with heq | hmem
        · rw [heq, ← trim_cons_of_whitespace m hw]
          exact List.mem_cons_self _ _
        · exact List.mem_cons_of_mem _ hmem
    · have hc : ¬ c = '\n' := fun hcn => hw (by rw [hcn]; decide)
      rw [trim_cons_of_not_whitespace cs hw] at h ⊢
      obtain ⟨m, ms, hs⟩ := List.exists_cons_of_ne_nil (splitLines_ne_nil cs)
      rw [splitLines_cons_of_ne hc hs, List.map_cons]
      have hnm : '\n' ∉ trimRight cs := fun hmem => h (List.mem_cons_of_mem _ hmem)
      have hseg := trimRight_head_segment hs hnm
      rw [trim_cons_of_not_whitespace m hw, ← hseg]
      exact List.mem_cons_self _ _

/-! ## Lemmas about the diff loop -/

theorem addedOnly_length (i : Nat) (ns : List Str) :
    (addedOnly i ns).length = ns.length := by
  induction ns generalizing i with
  | nil => rfl
  | cons n ns ih => simp [addedOnly, ih]

theorem addedOnly_mem (i : Nat) (ns : List Str) (j : Nat) (c : Str) :
    (⟨j, c⟩ : LineChange) ∈ addedOnly i ns ↔
      ∃ k, j = i + k + 1 ∧ ns[k]? = some c := by
  induction ns generalizing i with
  | nil => simp [addedOnly]
  | cons n ns ih =>
    simp only [addedOnly, List.mem_cons, ih, LineChange.mk.injEq]
    constructor
    · rintro (⟨rfl, rfl⟩ | ⟨k, rfl, hk⟩)
      · exact ⟨0, by simp⟩
      · exact ⟨k + 1, by omega, by simpa using hk⟩
    · rintro ⟨k, rfl, hk⟩
      cases k with
      | zero =>
        simp only [List.getElem?_cons_zero, Option.some.injEq] at hk
        exact Or.inl ⟨by omega, hk.symm⟩
      | succ k =>
        right
        exact ⟨k, by omega, by simpa using hk⟩

theorem diffLoop_nil_right (i : Nat) (os : List Str) :
    diffLoop i os [] = ⟨[], addedOnly i os, []⟩ := by
  induction os generalizing i with
  | nil => rfl
  | cons o os ih => simp [diffLoop, addedOnly, ih]

theorem diffLoop_self (i : Nat) (ls : List Str) :
    diffLoop i ls ls = ⟨[], [], []⟩ := by
  induction ls generalizing i with
  | nil => rfl
  | cons l ls ih => simp [diffLoop, ih]

theorem diffLoop_swap (i : Nat) (os ns : List Str) :
    (diffLoop i os ns).added = (diffLoop i ns os).removed ∧
      (diffLoop i os ns).removed = (diffLoop i ns os).added := by
  induction os generalizing ns i with
  | nil =>
    rw [diffLoop_nil_right]
    cases ns with
    | nil => exact ⟨rfl, rfl⟩
    | cons n ns => exact ⟨rfl, rfl⟩
  | cons o os ih =>
    cases ns with
    | nil =>
      rw [diffLoop_nil_right, show diffLoop i [] (o :: os) = ⟨addedOnly i (o :: os), [], []⟩ from rfl]
      exact ⟨rfl, rfl⟩
    | cons n ns =>
      have h1 := ih (i + 1) ns
      by_cases h : o = n
      · subst h
        simp [diffLoop, h1.1, h1.2]
      · have hne : ¬ n = o := fun hno => h hno.symm
        simp [diffLoop, h, hne, h1.1, h1.2]

theorem diffLoop_added_mem (os ns : List Str) (i j : Nat) (c : Str) :
    (⟨j, c⟩ : LineChange) ∈ (diffLoop i os ns).added ↔
      ∃ k, j = i + k + 1 ∧ os[k]? = none ∧ ns[k]? = some c := by
  induction os generalizing ns i with
  | nil =>
    rw [show diffLoop i [] ns = ⟨addedOnly i ns, [], []⟩ from rfl]
    simp [addedOnly_mem]
  | cons o os ih =>
    cases ns with
    | nil =>
      rw [diffLoop_nil_right]
      simp
    | cons n ns =>
      have hrec : (⟨j, c⟩ : LineChange) ∈ (diffLoop (i + 1) os ns).added ↔
          ∃ k, j = i + 1 + k + 1 ∧ os[k]? = none ∧ ns[k]? = some c := ih ns (i + 1)
      have hstep : (diffLoop i (o :: os) (n :: ns)).added = (diffLoop (i + 1) os ns).added := by
        by_cases h : o = n <;> simp [diffLoop, h]
      rw [hstep, hrec]
      constructor
      · rintro ⟨k, rfl, hk1, hk2⟩
        exact ⟨k + 1, by omega, by simpa using hk1, by simpa using hk2⟩
      · rintro ⟨k, rfl, hk1, hk2⟩
        cases k with
        | zero => simp at hk1
        | succ k =>
          exact ⟨k, by omega, by simpa using hk1, by simpa using hk2⟩

theorem diffLoop_removed_mem (os ns : List Str) (i j : Nat) (c : Str) :
    (⟨j, c⟩ : LineChange) ∈ (diffLoop i os ns).removed ↔
      ∃ k, j = i + k + 1 ∧ os[k]? = some c ∧ ns[k]? = none := by
  rw [(diffLoop_swap i os ns).2, diffLoop_added_mem]
  constructor
  · rintro ⟨k, rfl, h1, h2⟩
    exact ⟨k, rfl, h2, h1⟩
  · rintro ⟨k, rfl, h1, h2⟩
    exact ⟨k, rfl, h2, h1⟩

theorem diffLoop_modified_mem (os ns : List Str) (i j : Nat) (oc nc : Str) :
    (⟨j, oc, nc⟩ : ModifiedLine) ∈ (diffLoop i os ns).modified ↔
      ∃ k, j = i + k + 1 ∧ os[k]? = some oc ∧ ns[k]? = some nc ∧ oc ≠ nc := by
  induction os generalizing ns i with
  | nil =>
    rw [show diffLoop i [] ns = ⟨addedOnly i ns, [], []⟩ from rfl]
    simp
  | cons o os ih =>
    cases ns with
    | nil =>
      rw [diffLoop_nil_right]
      simp
    | cons n ns =>
      have hrec := ih ns (i + 1)
      by_cases h : o = n
      · subst h
        rw [show (diffLoop i (o :: os) (o :: ns)).modified = (diffLoop (i + 1) os ns).modified
            from by simp [diffLoop], hrec]
        constructor
        · rintro ⟨k, rfl, hk1, hk2, hk3⟩
          exact ⟨k + 1, by omega, by simpa using hk1, by simpa using hk2, hk3⟩
        · rintro ⟨k, rfl, hk1, hk2, hk3⟩
          cases k with
          | zero =>
            simp only [List.getElem?_cons_zero, Option.some.injEq] at hk1 hk2
            exact absurd (hk1.symm.trans hk2) hk3
          | succ k =>
            exact ⟨k, by omega, by simpa using hk1, by simpa using hk2, hk3⟩
      · rw [show (diffLoop i (o :: os) (n :: ns)).modified
            = ⟨i + 1, o, n⟩ :: (diffLoop (i + 1) os ns).modified from by simp [diffLoop, h]]
        simp only [List.mem_cons, hrec, ModifiedLine.mk.injEq]
        constructor
        · rintro (⟨rfl, rfl, rfl⟩ | ⟨k, rfl, hk1, hk2, hk3⟩)
          · exact ⟨0, by simp [h]⟩
          · exact ⟨k + 1, by omega, by simpa using hk1, by simpa using hk2, hk3⟩
        · rintro ⟨k, rfl, hk1, hk2, hk3⟩
          cases k with
          | zero =>
            simp only [List.getElem?_cons_zero, Option.some.injEq] at hk1 hk2
            exact Or.inl ⟨by omega, hk1.symm, hk2.symm⟩
          | succ k =>
            right
            exact ⟨k, by omega, by simpa using hk1, by simpa using hk2, hk3⟩

/-- Number of positions where both sides are present and agree. -/
def numEq : List Str → List Str → Nat
  | o :: os, n :: ns => (if o = n then 1 else 0) + numEq os ns
  | _, _ => 0

theorem diffLoop_count (os ns : List Str) (i : Nat) :
    (diffLoop i os ns).added.length + (diffLoop i os ns).removed.length
        + (diffLoop i os ns).modified.length + numEq os ns
      = max os.length ns.length := by
  induction os generalizing ns i with
  | nil =>
    rw [show diffLoop i [] ns = ⟨addedOnly i ns, [], []⟩ from rfl]
    cases ns <;> simp [numEq, addedOnly_length]
  | cons o os ih =>
    cases ns with
    | nil =>
      rw [diffLoop_nil_right]
      simp [numEq, addedOnly_length]
    | cons n ns =>
      have hrec := ih ns (i + 1)
      by_cases h : o = n <;>
        simp only [diffLoop, h, if_true, if_false, numEq, List.length_cons] <;>
        simp [Nat.succ_max_succ] <;> omega

theorem diffLoop_numEq (os ns : List Str) (i : Nat) :
    numEq os ns + (diffLoop i os ns).modified.length = min os.length ns.length := by
  induction os generalizing ns i with
  | nil =>
    rw [show diffLoop i [] ns = ⟨addedOnly i ns, [], []⟩ from rfl]
    cases ns <;> simp [numEq]
  | cons o os ih =>
    cases ns with
    | nil =>
      rw [diffLoop_nil_right]
      simp [numEq]
    | cons n ns =>
      have hrec := ih ns (i + 1)
      by_cases h : o = n <;>
        simp only [diffLoop, h, if_true, if_false, numEq, List.length_cons] <;>
        simp [Nat.succ_min_succ] <;> omega

/-! ## Lemmas about the attribution engine -/

theorem decide_pos_eq_not_beq_zero (n : Nat) : (decide (0 < n)) = !(n == 0) := by
  cases n <;> simp

theorem foldl_stepInsertion_closed (lineContent : Str) (lineNumber : Nat)
    (ins : List TextInsertion) (st : MatchState) :
    ins.foldl (stepInsertion lineContent lineNumber) st =
      ⟨st.copilotUsedCount + ins.countP (matchesCandidate lineContent),
        st.manualChangesCount,
        st.matchedChanges ++ List.replicate (ins.countP (matchesCandidate lineContent))
          (lineNumber, truncate60 lineContent)⟩ := by
  induction ins generalizing st with
  | nil =>
    cases st
    simp
  | cons a as ih =>
    by_cases hm : matchesCandidate lineContent a = true
    · have hstep : stepInsertion lineContent lineNumber st a
          = ⟨st.copilotUsedCount + 1, st.manualChangesCount,
              st.matchedChanges ++ [(lineNumber, truncate60 lineContent)]⟩ := by
        simp [stepInsertion, hm]
      rw [List.foldl_cons, hstep, ih, List.countP_cons_of_pos _ _ hm]
      simp only [MatchState.mk.injEq, List.replicate_succ, List.append_assoc,
        List.singleton_append]
      exact ⟨by omega, trivial, trivial⟩
    · have hstep : stepInsertion lineContent lineNumber st a = st := by
        simp [stepInsertion, hm]
      rw [List.foldl_cons, hstep, ih, List.countP_cons_of_neg _ _ hm]

theorem foldl_stepLine_closed (fileInsertions : List TextInsertion)
    (ls : List LineChange) (st : MatchState) :
    ls.foldl (stepLine fileInsertions) st =
      ⟨st.copilotUsedCount + (ls.map (lineMatchCount fileInsertions)).sum,
        st.manualChangesCount + ls.countP (isManualLine fileInsertions),
        st.matchedChanges ++ ls.flatMap (lineMatchEntries fileInsertions)⟩ := by
  induction ls generalizing st with
  | nil =>
    cases st
    simp
  | cons cl ls ih =>
    rw [List.foldl_cons]
    by_cases h0 : (trim cl.content).length = 0
    · have hstep : stepLine fileInsertions st cl = st := by
        simp [stepLine, h0]
      have hcnt : lineMatchCount fileInsertions cl = 0 := by
        simp [lineMatchCount, h0]
      have hman : ¬ isManualLine fileInsertions cl = true := by
        simp [isManualLine, h0]
      rw [hstep, ih, List.countP_cons_of_neg _ _ hman]
      simp [hcnt, lineMatchEntries, List.flatMap_cons]
    · have hcnt : lineMatchCount fileInsertions cl
          = fileInsertions.countP (matchesCandidate (trim cl.content)) := by
        simp [lineMatchCount, h0]
      by_cases hany : fileInsertions.any (matchesCandidate (trim cl.content)) = true
      · have hstep : stepLine fileInsertions st cl
            = ⟨st.copilotUsedCount + fileInsertions.countP (matchesCandidate (trim cl.content)),
                st.manualChangesCount,
                st.matchedChanges
                  ++ List.replicate (fileInsertions.countP (matchesCandidate (trim cl.content)))
                      (cl.lineNumber, truncate60 (trim cl.content))⟩ := by
          simp only [stepLine, if_neg h0]
          rw [foldl_stepInsertion_closed, if_pos hany]
        have hman : ¬ isManualLine fileInsertions cl = true := by
          simp [isManualLine, hany]
        rw [hstep, ih, List.countP_cons_of_neg _ _ hman]
        simp only [List.map_cons, List.sum_cons, List.flatMap_cons, hcnt,
          lineMatchEntries, MatchState.mk.injEq]
        exact ⟨by omega, trivial, by first | trivial | simp [List.append_assoc]⟩
      · have hzero : fileInsertions.countP (matchesCandidate (trim cl.content)) = 0 := by
          rw [List.countP_eq_zero]
          intro a ha
          exact fun hma => hany (List.any_eq_true.mpr ⟨a, ha, hma⟩)
        have hstep : stepLine fileInsertions st cl
            = ⟨st.copilotUsedCount, st.manualChangesCount + 1, st.matchedChanges⟩ := by
          simp only [stepLine, if_neg h0]
          rw [foldl_stepInsertion_closed, if_neg hany]
          simp [hzero]
        have hman : isManualLine fileInsertions cl = true := by
          simp [isManualLine, h0, hany]
        rw [hstep, ih, List.countP_cons_of_pos _ _ hman]
        simp only [List.map_cons, List.sum_cons, List.flatMap_cons, hcnt, hzero,
          lineMatchEntries, MatchState.mk.injEq, List.replicate_zero, List.nil_append]
        exact ⟨by omega, by omega, trivial⟩

theorem lineMatchCount_nil (cl : LineChange) : lineMatchCount [] cl = 0 := by
  simp [lineMatchCount]

theorem analyze_copilotUsedCount (d : DiffResult) (ins : List TextInsertion) :
    (analyzeCopilotUsage d ins).copilotUsedCount
      = ((candidateLines d).map (lineMatchCount ins)).sum := by
  simp only [analyzeCopilotUsage]
  by_cases h : 0 < ins.length ∧ 0 < (candidateLines d).length
  · rw [if_pos h, foldl_stepLine_closed]
    simp
  · rw [if_neg h]
    rcases Decidable.not_and_iff_or_not.mp h with h1 | h1
    · have hins : ins = [] := by
        cases ins with
        | nil => rfl
        | cons a as => exact absurd (by simp) h1
      subst hins
      symm
      apply List.sum_eq_zero
      intro x hx
      obtain ⟨cl, _, rfl⟩ := List.mem_map.mp hx
      exact lineMatchCount_nil cl
    · have hcs : candidateLines d = [] := by
        cases hh : candidateLines d with
        | nil => rfl
        | cons a as => rw [hh] at h1; exact absurd (by simp) h1
      simp [hcs]

theorem analyze_manualChangesCount (d : DiffResult) (ins : List TextInsertion) :
    (analyzeCopilotUsage d ins).manualChangesCount
      = (candidateLines d).countP (isManualLine ins) := by
  simp only [analyzeCopilotUsage]
  by_cases h : 0 < ins.length ∧ 0 < (candidateLines d).length
  · rw [if_pos h, foldl_stepLine_closed]
    simp
  · rw [if_neg h]
    rcases Decidable.not_and_iff_or_not.mp h with h1 | h1
    · have hins : ins = [] := by
        cases ins with
        | nil => rfl
        | cons a as => exact absurd (by simp) h1
      subst hins
      rw [← List.countP_eq_length_filter]
      apply List.countP_congr
      intro cl _
      simp [isManualLine, decide_pos_eq_not_beq_zero]
    · have hcs : candidateLines d = [] := by
        cases hh : candidateLines d with
        | nil => rfl
        | cons a as => rw [hh] at h1; exact absurd (by simp) h1
      simp [hcs]

theorem analyze_matchedChanges (d : DiffResult) (ins : List TextInsertion) :
    (analyzeCopilotUsage d ins).matchedChanges
      = (candidateLines d).flatMap (lineMatchEntries ins) := by
  simp only [analyzeCopilotUsage]
  by_cases h : 0 < ins.length ∧ 0 < (candidateLines d).length
  · rw [if_pos h, foldl_stepLine_closed]
    simp
  · rw [if_neg h]
    rcases Decidable.not_and_iff_or_not.mp h with h1 | h1
    · have hins : ins = [] := by
        cases ins with
        | nil => rfl
        | cons a as => exact absurd (by simp) h1
      subst hins
      symm
      apply List.eq_nil_iff_forall_not_mem.mpr
      intro x hx
      obtain ⟨cl, _, hxe⟩ := List.mem_flatMap.mp hx
      rw [lineMatchEntries, lineMatchCount_nil, List.replicate_zero] at hxe
      exact absurd hxe (List.not_mem_nil x)
    · have hcs : candidateLines d = [] := by
        cases hh : candidateLines d with
        | nil => rfl
        | cons a as => rw [hh] at h1; exact absurd (by simp) h1
      simp [hcs]

theorem analyze_totalChanges (d : DiffResult) (ins : List TextInsertion) :
    (analyzeCopilotUsage d ins).totalChanges
      = (analyzeCopilotUsage d ins).copilotUsedCount
        + (analyzeCopilotUsage d ins).manualChangesCount := rfl

theorem calc_added (A B : Str) :
    (calculateDetailedDifferences A B).added
      = (diffLoop 0 (splitLines A) (splitLines B)).added := rfl

theorem calc_removed (A B : Str) :
    (calculateDetailedDifferences A B).removed
      = (diffLoop 0 (splitLines A) (splitLines B)).removed := rfl

theorem calc_modified (A B : Str) :
    (calculateDetailedDifferences A B).modified
      = (diffLoop 0 (splitLines A) (splitLines B)).modified := rfl

theorem calc_linesUnchanged (A B : Str) :
    (calculateDetailedDifferences A B).statistics.linesUnchanged
      = (min (splitLines A).length (splitLines B).length : Int)
        - (diffLoop 0 (splitLines A) (splitLines B)).modified.length := rfl

theorem analyze_copilotPercentage (d : DiffResult) (ins : List TextInsertion) :
    (analyzeCopilotUsage d ins).copilotPercentage
      = if 0 < (analyzeCopilotUsage d ins).copilotUsedCount
            + (analyzeCopilotUsage d ins).manualChangesCount then
          round (((analyzeCopilotUsage d ins).copilotUsedCount : ℚ)
            / (((analyzeCopilotUsage d ins).copilotUsedCount
                + (analyzeCopilotUsage d ins).manualChangesCount : Nat) : ℚ) * 100)
        else 0 := rfl

/-! ## Claim theorems: diff engine -/

/-- Claim C7: diffing a string against itself yields no added, removed or modified
deltas, and the unchanged-line count equals the string's line count. -/
theorem diff_self_empty (A : Str) :
    (calculateDetailedDifferences A A).added = []
    ∧ (calculateDetailedDifferences A A).removed = []
    ∧ (calculateDetailedDifferences A A).modified = []
    ∧ (calculateDetailedDifferences A A).statistics.linesUnchanged
        = ((splitLines A).length : Int) := by
  have h := diffLoop_self 0 (splitLines A)
  refine ⟨?_, ?_, ?_, ?_⟩
  · rw [calc_added, h]
  · rw [calc_removed, h]
  · rw [calc_modified, h]
  · rw [calc_linesUnchanged, h]
    simp

/-- Claim C5: the number of added plus removed plus modified deltas plus the
unchanged-line statistic equals the larger of the two line counts. -/
theorem diff_delta_count_sum (A B : Str) :
    ((calculateDetailedDifferences A B).added.length : Int)
      + (calculateDetailedDifferences A B).removed.length
      + (calculateDetailedDifferences A B).modified.length
      + (calculateDetailedDifferences A B).statistics.linesUnchanged
    = (max (splitLines A).length (splitLines B).length : Int) := by
  have h1 := diffLoop_count (splitLines A) (splitLines B) 0
  have h2 := diffLoop_numEq (splitLines A) (splitLines B) 0
  rw [calc_added, calc_removed, calc_modified, calc_linesUnchanged]
  omega

/-- Claim C6: the diff is anti-symmetric in delta kind: the added deltas of
diff(A,B) are exactly the removed deltas of diff(B,A) and conversely, by position
and content. -/
theorem diff_antisymmetry (A B : Str) :
    (calculateDetailedDifferences A B).added = (calculateDetailedDifferences B A).removed
    ∧ (calculateDetailedDifferences A B).removed
        = (calculateDetailedDifferences B A).added := by
  have h := diffLoop_swap 0 (splitLines A) (splitLines B)
  exact ⟨by rw [calc_added, calc_removed, h.1], by rw [calc_removed, calc_added, h.2]⟩

/-- Claim C4: positional delta classification - at position i the diff emits an
Added delta (line i+1, new content) exactly when only the new side has a line, a
Removed delta exactly when only the old side has one, a Modified delta exactly
when both sides differ, and no delta when they are equal; and the concrete example
old "a\nb\nc" versus new "a\nB\nc\nd" yields exactly modified {2,"b","B"} and
added {4,"d"}, no removed deltas, linesAdded 1, linesModified 1, netLineChange 1. -/
theorem diff_delta_characterization :
    (∀ (A B : Str) (i : Nat) (c : Str),
      (⟨i + 1, c⟩ : LineChange) ∈ (calculateDetailedDifferences A B).added
        ↔ (splitLines A)[i]? = none ∧ (splitLines B)[i]? = some c)
    ∧ (∀ (A B : Str) (i : Nat) (c : Str),
      (⟨i + 1, c⟩ : LineChange) ∈ (calculateDetailedDifferences A B).removed
        ↔ (splitLines A)[i]? = some c ∧ (splitLines B)[i]? = none)
    ∧ (∀ (A B : Str) (i : Nat) (oc nc : Str),
      (⟨i + 1, oc, nc⟩ : ModifiedLine) ∈ (calculateDetailedDifferences A B).modified
        ↔ (splitLines A)[i]? = some oc ∧ (splitLines B)[i]? = some nc ∧ oc ≠ nc)
    ∧ ((calculateDetailedDifferences "a\nb\nc".toList "a\nB\nc\nd".toList).modified
          = [⟨2, "b".toList, "B".toList⟩]
        ∧ (calculateDetailedDifferences "a\nb\nc".toList "a\nB\nc\nd".toList).added
          = [⟨4, "d".toList⟩]
        ∧ (calculateDetailedDifferences "a\nb\nc".toList "a\nB\nc\nd".toList).removed = []
        ∧ (calculateDetailedDifferences "a\nb\nc".toList "a\nB\nc\nd".toList).statistics.linesAdded = 1
        ∧ (calculateDetailedDifferences "a\nb\nc".toList "a\nB\nc\nd".toList).statistics.linesModified = 1
        ∧ (calculateDetailedDifferences "a\nb\nc".toList "a\nB\nc\nd".toList).statistics.netLineChange = 1) := by
  refine ⟨?_, ?_, ?_, by decide⟩
  · intro A B i c
    rw [calc_added, diffLoop_added_mem]
    constructor
    · rintro ⟨k, hk, h1, h2⟩
      obtain rfl : k = i := by omega
      exact ⟨h1, h2⟩
    · rintro ⟨h1, h2⟩
      exact ⟨i, by omega, h1, h2⟩
  · intro A B i c
    rw [calc_removed, diffLoop_removed_mem]
    constructor
    · rintro ⟨k, hk, h1, h2⟩
      obtain rfl : k = i := by omega
      exact ⟨h1, h2⟩
    · rintro ⟨h1, h2⟩
      exact ⟨i, by omega, h1, h2⟩
  · intro A B i oc nc
    rw [calc_modified, diffLoop_modified_mem]
    constructor
    · rintro ⟨k, hk, h1, h2, h3⟩
      obtain rfl : k = i := by omega
      exact ⟨h1, h2, h3⟩
    · rintro ⟨h1, h2, h3⟩
      exact ⟨i, by omega, h1, h2, h3⟩

/-- Claim C10: the line count of any text is its newline count plus one (never 0,
the empty string counting as one empty line); diff("","") reports one old and one
new line, one unchanged line and no deltas; and diffing an empty baseline against
a non-empty newline-free text yields a Modified delta at line 1, not an Added
delta. -/
theorem lineCount_newlines :
    (∀ s : Str, (splitLines s).length = s.count '\n' + 1)
    ∧ ((calculateDetailedDifferences [] []).statistics.totalOldLines = 1
        ∧ (calculateDetailedDifferences [] []).statistics.totalNewLines = 1
        ∧ (calculateDetailedDifferences [] []).statistics.linesUnchanged = 1
        ∧ (calculateDetailedDifferences [] []).added = []
        ∧ (calculateDetailedDifferences [] []).removed = []
        ∧ (calculateDetailedDifferences [] []).modified = [])
    ∧ (∀ s : Str, s ≠ [] → s.count '\n' = 0 →
        (calculateDetailedDifferences [] s).modified = [⟨1, [], s⟩]
        ∧ (calculateDetailedDifferences [] s).added = []
        ∧ (calculateDetailedDifferences [] s).removed = []) := by
  refine ⟨length_splitLines, by decide, ?_⟩
  intro s hne h0
  have hB : splitLines s = [s] := splitLines_of_no_newline h0
  have hA : splitLines ([] : Str) = [[]] := rfl
  have hno : ¬ ([] : Str) = s := fun h => hne h.symm
  refine ⟨?_, ?_, ?_⟩
  · rw [calc_modified, hA, hB]
    simp [diffLoop, hno, addedOnly]
  · rw [calc_added, hA, hB]
    simp [diffLoop, hno, addedOnly]
  · rw [calc_removed, hA, hB]
    simp [diffLoop, hno, addedOnly]

/-- Witness for the hypothesis-bearing part of `lineCount_newlines`, at the
concrete newline-free text "abc". -/
theorem lineCount_newlines_witness :
    ("abc".toList ≠ ([] : Str))
    ∧ (calculateDetailedDifferences [] "abc".toList).modified
        = [⟨1, [], "abc".toList⟩] := by
  refine ⟨by decide, ?_⟩
  exact (lineCount_newlines.2.2 "abc".toList (by decide) (by decide)).1

/-! ## Claim theorems: attribution engine and tracker -/

/-- Claim C9: attributing any diff result against an empty insertion list yields
zero tool-attributed changes, and a manual count equal to the number of added
lines plus modified-line new contents that are non-blank after trimming. -/
theorem attribute_empty_insertions (d : DiffResult) :
    (analyzeCopilotUsage d []).copilotUsedCount = 0
    ∧ (analyzeCopilotUsage d []).manualChangesCount
        = d.added.countP (fun l => decide (0 < (trim l.content).length))
          + d.modified.countP (fun m => decide (0 < (trim m.newContent).length)) := by
  constructor
  · rw [analyze_copilotUsedCount]
    apply List.sum_eq_zero
    intro x hx
    obtain ⟨cl, _, rfl⟩ := List.mem_map.mp hx
    exact lineMatchCount_nil cl
  · rw [analyze_manualChangesCount]
    have hfun : isManualLine ([] : List TextInsertion)
        = fun cl => decide (0 < (trim cl.content).length) := by
      funext cl
      simp [isManualLine, decide_pos_eq_not_beq_zero]
    rw [hfun]
    unfold candidateLines
    rw [List.countP_append, List.countP_map, List.countP_map]
    rfl

def cexStats : DiffStatistics := ⟨0, 0, 0, 0, 0, 0, 0, 0⟩

def cexDiffOneHello : DiffResult :=
  ⟨cexStats, [⟨1, "hello".toList⟩], [], [], [], []⟩

def cexInsHello1 : TextInsertion := ⟨0, "f".toList, "hello".toList, 1⟩

def cexInsHello2 : TextInsertion := ⟨1, "f".toList, "hello".toList, 2⟩

/-- Claim C1 counterexample: one non-blank candidate line matching two insertion
events is counted once per matching insertion, so `copilotUsedCount` is 2 and
`copilotUsedCount + manualChangesCount` differs from the candidate-line count 1. -/
theorem attribution_pair_counting_cex :
    (analyzeCopilotUsage cexDiffOneHello [cexInsHello1, cexInsHello2]).copilotUsedCount = 2
    ∧ (analyzeCopilotUsage cexDiffOneHello [cexInsHello1, cexInsHello2]).manualChangesCount = 0
    ∧ (candidateLines cexDiffOneHello).countP
        (fun cl => decide (0 < (trim cl.content).length)) = 1
    ∧ ¬ ((analyzeCopilotUsage cexDiffOneHello [cexInsHello1, cexInsHello2]).copilotUsedCount
          + (analyzeCopilotUsage cexDiffOneHello [cexInsHello1, cexInsHello2]).manualChangesCount
        = (candidateLines cexDiffOneHello).countP
            (fun cl => decide (0 < (trim cl.content).length))) := by decide

/-- Claim C1 (amended): `copilotUsedCount` totals one count per matched
(candidate line, insertion) pair - a non-blank candidate contributes the number of
insertion events it matches, not 1; `manualChangesCount` counts the non-blank
candidates matching none; and manual plus distinct-matched candidates equals the
non-blank candidate count. -/
theorem attribution_counts_characterization (d : DiffResult) (ins : List TextInsertion) :
    (analyzeCopilotUsage d ins).copilotUsedCount
        = ((candidateLines d).map (lineMatchCount ins)).sum
    ∧ (analyzeCopilotUsage d ins).manualChangesCount
        = (candidateLines d).countP (isManualLine ins)
    ∧ (analyzeCopilotUsage d ins).manualChangesCount
          + (candidateLines d).countP (isMatchedLine ins)
        = (candidateLines d).countP (fun cl => decide (0 < (trim cl.content).length)) := by
  refine ⟨analyze_copilotUsedCount d ins, analyze_manualChangesCount d ins, ?_⟩
  rw [analyze_manualChangesCount]
  have key : ∀ ls : List LineChange,
      ls.countP (isManualLine ins) + ls.countP (isMatchedLine ins)
        = ls.countP (fun cl => decide (0 < (trim cl.content).length)) := by
    intro ls
    induction ls with
    | nil => simp
    | cons cl ls ih =>
      rw [List.countP_cons, List.countP_cons, List.countP_cons]
      have hsingle : (if isManualLine ins cl then 1 else 0)
            + (if isMatchedLine ins cl then 1 else 0)
          = if decide (0 < (trim cl.content).length) then 1 else 0 := by
        by_cases h0 : (trim cl.content).length = 0
        · simp [isManualLine, isMatchedLine, h0]
        · have hpos : 0 < (trim cl.content).length := Nat.pos_of_ne_zero h0
          by_cases hany : ins.any (matchesCandidate (trim cl.content)) = true
          · simp [isManualLine, isMatchedLine, h0, hany, hpos]
          · simp [isManualLine, isMatchedLine, h0, hany, hpos]
      omega
  exact key (candidateLines d)

theorem analyze_total_pos_iff (d : DiffResult) (ins : List TextInsertion) :
    0 < (analyzeCopilotUsage d ins).copilotUsedCount
        + (analyzeCopilotUsage d ins).manualChangesCount
      ↔ 0 < (candidateLines d).countP (fun cl => decide (0 < (trim cl.content).length)) := by
  rw [analyze_copilotUsedCount, analyze_manualChangesCount]
  constructor
  · intro h
    by_contra hc
    have hc0 : (candidateLines d).countP
        (fun cl => decide (0 < (trim cl.content).length)) = 0 := by omega
    have hall := List.countP_eq_zero.mp hc0
    have hsum : ((candidateLines d).map (lineMatchCount ins)).sum = 0 := by
      apply List.sum_eq_zero
      intro x hx
      obtain ⟨cl, hcl, rfl⟩ := List.mem_map.mp hx
      have hblank : (trim cl.content).length = 0 := by
        have := hall cl hcl
        simpa using this
      simp [lineMatchCount, hblank]
    have hman : (candidateLines d).countP (isManualLine ins) = 0 := by
      rw [List.countP_eq_zero]
      intro cl hcl
      have hblank : (trim cl.content).length = 0 := by
        have := hall cl hcl
        simpa using this
      simp [isManualLine, hblank]
    omega
  · intro h
    obtain ⟨cl, hcl, hp⟩ := List.countP_pos_iff.mp h
    have hpos : 0 < (trim cl.content).length := by simpa using hp
    by_cases hany : ins.any (matchesCandidate (trim cl.content)) = true
    · have h1 : 0 < lineMatchCount ins cl := by
        have hcp : 0 < ins.countP (matchesCandidate (trim cl.content)) := by
          obtain ⟨a, ha, hma⟩ := List.any_eq_true.mp hany
          exact List.countP_pos_iff.mpr ⟨a, ha, hma⟩
        rw [lineMatchCount, if_neg (by omega)]
        exact hcp
      have h2 : lineMatchCount ins cl ≤ ((candidateLines d).map (lineMatchCount ins)).sum :=
        List.single_le_sum (fun x _ => Nat.zero_le x) _ (List.mem_map_of_mem _ hcl)
      omega
    · have h1 : 0 < (candidateLines d).countP (isManualLine ins) := by
        apply List.countP_pos_iff.mpr
        refine ⟨cl, hcl, ?_⟩
        simp [isManualLine, hany, Nat.pos_iff_ne_zero.mp hpos]
      omega

def cexDiffHelloZzz : DiffResult :=
  ⟨cexStats, [⟨1, "hello".toList⟩, ⟨2, "zzz".toList⟩], [], [], [], []⟩

/-- Claim C3 counterexample: with one candidate matching two insertions and one
unmatched candidate the reported percentage is round(2/3*100) = 67, while
round(100*k/n) for k = 1 distinct matched line of n = 2 candidate lines is 50. -/
theorem percentage_distinct_formula_cex :
    (analyzeCopilotUsage cexDiffHelloZzz [cexInsHello1, cexInsHello2]).copilotPercentage = 67
    ∧ (candidateLines cexDiffHelloZzz).countP (isMatchedLine [cexInsHello1, cexInsHello2]) = 1
    ∧ (candidateLines cexDiffHelloZzz).countP
        (fun cl => decide (0 < (trim cl.content).length)) = 2
    ∧ ¬ ((analyzeCopilotUsage cexDiffHelloZzz [cexInsHello1, cexInsHello2]).copilotPercentage
        = round (100 * (((candidateLines cexDiffHelloZzz).countP
                (isMatchedLine [cexInsHello1, cexInsHello2]) : ℚ))
            / (((candidateLines cexDiffHelloZzz).countP
                (fun cl => decide (0 < (trim cl.content).length)) : Nat) : ℚ))) := by
  have hcu : (analyzeCopilotUsage cexDiffHelloZzz
      [cexInsHello1, cexInsHello2]).copilotUsedCount = 2 := by decide
  have hmc : (analyzeCopilotUsage cexDiffHelloZzz
      [cexInsHello1, cexInsHello2]).manualChangesCount = 1 := by decide
  have hk : (candidateLines cexDiffHelloZzz).countP
      (isMatchedLine [cexInsHello1, cexInsHello2]) = 1 := by decide
  have hn : (candidateLines cexDiffHelloZzz).countP
      (fun cl => decide (0 < (trim cl.content).length)) = 2 := by decide
  have hp : (analyzeCopilotUsage cexDiffHelloZzz
      [cexInsHello1, cexInsHello2]).copilotPercentage = 67 := by
    rw [analyze_copilotPercentage, hcu, hmc]
    norm_num [round_eq]
  refine ⟨hp, hk, hn, ?_⟩
  rw [hp, hk, hn]
  norm_num [round_eq]

/-- Claim C3 (amended): the reported percentage is 0 when there is no non-blank
candidate line, and otherwise round(copilotUsedCount / totalChanges * 100) where
`copilotUsedCount` counts matched (line, insertion) pairs and
`totalChanges = copilotUsedCount + manualChangesCount`; the round(100*k/n) form in
terms of k distinct matched lines of n candidates holds only when every matched
line matches exactly one insertion. -/
theorem percentage_formula (d : DiffResult) (ins : List TextInsertion) :
    (analyzeCopilotUsage d ins).copilotPercentage
      = if (candidateLines d).countP (fun cl => decide (0 < (trim cl.content).length)) = 0
        then 0
        else round (((analyzeCopilotUsage d ins).copilotUsedCount : ℚ)
            / (((analyzeCopilotUsage d ins).copilotUsedCount
                + (analyzeCopilotUsage d ins).manualChangesCount : Nat) : ℚ) * 100) := by
  rw [analyze_copilotPercentage]
  by_cases h : (candidateLines d).countP (fun cl => decide (0 < (trim cl.content).length)) = 0
  · rw [if_pos h, if_neg (by rw [analyze_total_pos_iff]; omega)]
  · rw [if_neg h, if_pos (by rw [analyze_total_pos_iff]; omega)]

def cexDiffBlank : DiffResult := ⟨cexStats, [⟨1, "   ".toList⟩], [], [], [], []⟩

def cexInsBlank : TextInsertion := ⟨0, "f".toList, "       ".toList, 1⟩

/-- Claim C2 counterexample: an insertion whose text trims to the empty string
and an added line whose content also trims to the empty string satisfy "text
exactly equals the line's content after trimming", yet the engine skips the blank
line entirely - nothing is matched or counted tool-attributed. -/
theorem exact_match_whitespace_cex :
    trim cexInsBlank.text = trim ("   ".toList : Str)
    ∧ (⟨1, "   ".toList⟩ : LineChange) ∈ cexDiffBlank.added
    ∧ (analyzeCopilotUsage cexDiffBlank [cexInsBlank]).copilotUsedCount = 0
    ∧ (analyzeCopilotUsage cexDiffBlank [cexInsBlank]).matchedChanges = []
    ∧ (analyzeCopilotUsage cexDiffBlank [cexInsBlank]).manualChangesCount = 0 := by decide

/-- Claim C2 (amended): the per-pair matching test agrees exactly with the
specification's three-rule disjunction; and any insertion event whose text trims
to the same string as a diff-produced added line's content, provided that trimmed
content is non-empty, leads the engine to record the line as tool-attributed
(it appears in `matchedChanges`). -/
theorem matching_rule_characterization :
    (∀ (lineContent : Str) (insertion : TextInsertion),
      matchesCandidate lineContent insertion = true
        ↔ matchesCandidateSpec lineContent insertion)
    ∧ ∀ (A B : Str) (ins : List TextInsertion) (event : TextInsertion)
        (line : LineChange),
        event ∈ ins →
        line ∈ (calculateDetailedDifferences A B).added →
        trim event.text = trim line.content →
        trim line.content ≠ [] →
        (line.lineNumber, truncate60 (trim line.content))
          ∈ (analyzeCopilotUsage (calculateDetailedDifferences A B) ins).matchedChanges := by
  constructor
  · intro lineContent insertion
    simp only [matchesCandidate, matchesCandidateSpec, List.any_eq_true, Bool.or_eq_true,
      Bool.and_eq_true, beq_iff_eq, decide_eq_true_eq]
    constructor <;> rintro ⟨x, hx, hcase⟩ <;> exact ⟨x, hx, by tauto⟩
  · intro A B ins event line hev hline htrim hne
    have hmem : (⟨line.lineNumber, line.content⟩ : LineChange)
        ∈ (diffLoop 0 (splitLines A) (splitLines B)).added := by
      rw [← calc_added]
      exact hline
    obtain ⟨k, hk, h1, h2⟩ :=
      (diffLoop_added_mem (splitLines A) (splitLines B) 0 line.lineNumber line.content).mp hmem
    have hmemB : line.content ∈ splitLines B := by
      have hk2 := List.getElem?_eq_some.mp h2
      obtain ⟨hlt, hget⟩ := hk2
      exact hget ▸ List.getElem_mem _
    have hnl : '\n' ∉ line.content := not_newline_of_mem_splitLines hmemB
    have hnl2 : '\n' ∉ trim line.content := fun hc => hnl (mem_of_mem_trim hc)
    have hnl3 : '\n' ∉ trim event.text := by
      rw [htrim]
      exact hnl2
    have hmemtext := trim_mem_map_trim_splitLines event.text hnl3
    rw [htrim] at hmemtext
    have hmatch : matchesCandidate (trim line.content) event = true := by
      simp only [matchesCandidate, List.any_eq_true]
      exact ⟨trim line.content, hmemtext, by simp⟩
    have hcp : 0 < ins.countP (matchesCandidate (trim line.content)) :=
      List.countP_pos_iff.mpr ⟨event, hev, hmatch⟩
    have hlen0 : ¬ (trim line.content).length = 0 :=
      fun hc => hne (List.length_eq_zero.mp hc)
    rw [analyze_matchedChanges]
    apply List.mem_flatMap.mpr
    refine ⟨line, ?_, ?_⟩
    · unfold candidateLines
      exact List.mem_append_left _ (List.mem_map_of_mem _ hline)
    · show _ ∈ List.replicate (lineMatchCount ins line) _
      rw [lineMatchCount, if_neg hlen0]
      exact List.mem_replicate.mpr ⟨by omega, rfl⟩

/-- Witness for `matching_rule_characterization`: the insertion "hello there"
matches the added line "hello there" of diff("x", "x\nhello there") and the line
is recorded in `matchedChanges`. -/
theorem matching_rule_characterization_witness :
    ((2 : Nat), truncate60 (trim "hello there".toList))
      ∈ (analyzeCopilotUsage
          (calculateDetailedDifferences "x".toList "x\nhello there".toList)
          [⟨0, "f".toList, "hello there".toList, 1⟩]).matchedChanges := by
  have h := matching_rule_characterization.2 "x".toList "x\nhello there".toList
    [⟨0, "f".toList, "hello there".toList, 1⟩]
    ⟨0, "f".toList, "hello there".toList, 1⟩
    ⟨2, "hello there".toList⟩
    (by decide) (by decide) (by decide) (by decide)
  exact h

def cexEvOld : TextInsertion := ⟨0, "f".toList, "ghijkl".toList, 1⟩

def cexChange : ContentChange := ⟨"abcdef".toList, 0, 0⟩

/-- Claim C8 counterexample: an event whose age is exactly 60,000 ms - an age
that does not exceed the retention window - is nevertheless removed by the code's
strict `age < 60000` keep-filter, so the result differs from the
prune-events-older-than-the-window reading of the specification; and a change
whose text is 6 characters long but replaces a non-empty range appends nothing,
so "appends exactly when the text's length exceeds 5" also fails without the
pure-insertion proviso. -/
theorem prune_boundary_cex :
    (60000 : Int) - cexEvOld.timestamp ≤ INSERTION_WINDOW_MS
    ∧ cexEvOld ∉ trackOneChange 60000 "f".toList [cexEvOld] cexChange
    ∧ trackOneChange 60000 "f".toList [cexEvOld] cexChange
        ≠ trackOneChangePerSpecWording 60000 "f".toList [cexEvOld] cexChange
    ∧ 5 < ("abcdef".toList : Str).length
    ∧ trackOneChange 60000 "f".toList [cexEvOld] ⟨"abcdef".toList, 3, 0⟩
        = [cexEvOld] := by decide

/-- Claim C8 (amended): for a pure insertion (nothing replaced), record appends a
current-timestamp event exactly when the text's length exceeds 5, and the new log
is the appended log filtered to events strictly younger than 60,000 ms - an event
aged exactly 60,000 ms is also removed - as a sublist, so relative order is
preserved, and every surviving event is younger than the window or came from the
prior log. -/
theorem trackOneChange_characterization (now : Int) (fileName : Str)
    (log : List TextInsertion) (change : ContentChange)
    (h : change.rangeLength = 0) :
    (trackOneChange now fileName log change
      = if 5 < change.text.length then
          (log ++ [(⟨now, fileName, change.text, change.startLine + 1⟩ : TextInsertion)]).filter
            (fun i => now - i.timestamp < INSERTION_WINDOW_MS)
        else log)
    ∧ List.Sublist (trackOneChange now fileName log change)
        (log ++ [(⟨now, fileName, change.text, change.startLine + 1⟩ : TextInsertion)])
    ∧ ∀ e ∈ trackOneChange now fileName log change,
        now - e.timestamp < INSERTION_WINDOW_MS ∨ e ∈ log := by
  by_cases hlen : 5 < change.text.length
  · have hpos : 0 < change.text.length := by omega
    have heq : trackOneChange now fileName log change
        = (log ++ [(⟨now, fileName, change.text, change.startLine + 1⟩ : TextInsertion)]).filter
            (fun i => now - i.timestamp < INSERTION_WINDOW_MS) := by
      simp [trackOneChange, h, hpos, hlen]
    refine ⟨by rw [heq, if_pos hlen], ?_, ?_⟩
    · rw [heq]
      exact List.filter_sublist _
    · intro e he
      rw [heq] at he
      left
      have := List.of_mem_filter he
      simpa using this
  · have heq : trackOneChange now fileName log change = log := by
      simp [trackOneChange, hlen]
    refine ⟨by rw [heq, if_neg hlen], ?_, ?_⟩
    · rw [heq]
      exact List.sublist_append_left _ _
    · intro e he
      rw [heq] at he
      exact Or.inr he

/-- Witness for `trackOneChange_characterization`: recording a 6-character pure
insertion at time 100000 over a one-event log keeps the result a sublist of the
appended log. -/
theorem trackOneChange_characterization_witness :
    List.Sublist
      (trackOneChange 100000 "f".toList [⟨50000, "f".toList, "ghijkl".toList, 1⟩]
        ⟨"abcdef".toList, 0, 0⟩)
      ([⟨50000, "f".toList, "ghijkl".toList, 1⟩]
        ++ [⟨100000, "f".toList, "abcdef".toList, 1⟩]) :=
  (trackOneChange_characterization 100000 "f".toList
    [⟨50000, "f".toList, "ghijkl".toList, 1⟩] ⟨"abcdef".toList, 0, 0⟩ rfl).2.1

end AIUsage
